import Mathlib

/-!
Verification of the efmt layout engine specification against a shallow
embedding of the source. The embedding follows the repository sources:

* `src/format/transaction.rs` — the transactional writer (`Transaction`,
  `TransactionConfig`, `TransactionState`, `write`, `write_item`,
  `write_comment`, `commit`, `abort`, `calc_indent`).
* `src/format2.rs` — the region renderer entry computation and retry
  protocol (`ItemToString::format_region`), the layout-tree builder
  (`Formatter2::add_token`, `Item::add_token`, `Item::add_region`).

Machine strings are modelled as `List Char` (the engine treats offsets as
byte offsets; the model indexes characters, which is faithful for the
ASCII inputs the claims are about). Fallible writes return
`Except FmtError`.
-/

namespace Efmt

/-- Source position, from `src/span.rs` usage: `(line, column, offset)`,
totally ordered by `offset` (spec section 3). -/
structure Position where
  line : Nat
  column : Nat
  offset : Nat
deriving DecidableEq, Repr

/-- A span record: anything exposing `start_position` and `end_position`.
Embeds the `Span` trait data used by `Transaction::write_item` and
`Transaction::write_comment`. -/
structure SpanRec where
  startPos : Position
  endPos : Position
deriving DecidableEq, Repr

/-- Modelled from the spec: the `Span` trait (`src/span.rs` is not under
`src/`); spec section 3 says `is_empty` iff `start == end`, with positions
totally ordered by offset. -/
def SpanRec.isEmpty (s : SpanRec) : Bool :=
  s.startPos.offset == s.endPos.offset

/-- Whitespace kinds used by `Transaction::needs_whitespace`
(`crate::format::Whitespace`): a single blank or a newline. -/
inductive Whitespace where
  | blank
  | newline
deriving DecidableEq, Repr

/-- Multiline modes of the transactional writer
(`crate::format::MultilineMode`): `Allow`, `Forbid`, `Recommend`.
`Recommend` is the mode that permits too-long lines (see
`Transaction::write`). -/
inductive MultilineMode where
  | allow
  | forbid
  | recommend
deriving DecidableEq, Repr

/-- Indent modes of the transactional writer
(`crate::format::IndentMode`), with the variants matched on by
`Transaction::calc_indent`: `CurrentIndent`, `Offset(n)`, `CurrentColumn`. -/
inductive IndentMode where
  | currentIndent
  | offset (n : Nat)
  | currentColumn
deriving DecidableEq, Repr

/-- Error kinds of `crate::format::Error` as used by the sources:
`Multiline { position }` and `MaxColumnsExceeded` are raised by
`Transaction::write`; `MultiLine`, `LineTooLong` and `MultiLineParent`
are matched on by `ItemToString::format_region` (the spec calls the
second one `LineTooLong`, the transactional writer raises it as
`MaxColumnsExceeded`). -/
inductive FmtError where
  | multiline (position : Position)
  | maxColumnsExceeded
  | multiLine
  | lineTooLong
  | multiLineParent
deriving DecidableEq, Repr

/-- `TransactionConfig` from `src/format/transaction.rs`. -/
structure TransactionConfig where
  indent : IndentMode
  maxColumns : Nat
  multilineMode : MultilineMode
deriving DecidableEq, Repr

/-- `TransactionState` from `src/format/transaction.rs`. The field
`indent` is the cached resolved indent (`Option<usize>`). -/
structure TransactionState where
  nextPosition : Position
  currentColumn : Nat
  needsWhitespace : Option Whitespace
  formattedText : List Char
  indent : Option Nat
deriving DecidableEq, Repr

/-- `Transaction` from `src/format/transaction.rs`: a config, a state and
an optional parent (`Option<Box<Self>>` in the source, split here into a
`root`/`child` pair of constructors). -/
inductive Transaction where
  | root (config : TransactionConfig) (state : TransactionState)
  | child (config : TransactionConfig) (state : TransactionState) (parent : Transaction)
deriving DecidableEq, Repr

namespace Transaction

/-- The transaction's config. -/
def config : Transaction → TransactionConfig
  | .root c _ => c
  | .child c _ _ => c

/-- The transaction's state. -/
def state : Transaction → TransactionState
  | .root _ s => s
  | .child _ s _ => s

/-- The transaction's parent, if any. -/
def parentOf : Transaction → Option Transaction
  | .root _ _ => none
  | .child _ _ p => some p

/-- Replace the state, keeping config and parent. -/
def withState (t : Transaction) (s : TransactionState) : Transaction :=
  match t with
  | .root c _ => .root c s
  | .child c _ p => .child c s p

/-- `Transaction::last_char`: the last character of this transaction's
buffer, falling back to the parent chain when the buffer is empty. -/
def lastChar : Transaction → Option Char
  | .root _ s => s.formattedText.getLast?
  | .child _ s p =>
    match s.formattedText.getLast? with
    | some c => some c
    | none => p.lastChar

/-- `Transaction::needs_whitespace(whitespace)` (named `requestWhitespace`
here because `needsWhitespace` is the state field): records a pending
whitespace request unless suppressed by the rules in the source. -/
def requestWhitespace (t : Transaction) (w : Whitespace) : Transaction :=
  match t.lastChar with
  | none => t
  | some c =>
    if c = '\n' then t
    else if c = ' ' ∧ w = .blank then t
    else if t.state.needsWhitespace = some .newline ∧ w = .blank then t
    else t.withState { t.state with needsWhitespace := some w }

/-- The indent computed by `Transaction::calc_indent` from the config's
indent mode, the parent's resolved indent, and the state. -/
def indentFrom (m : IndentMode) (parentIndent : Nat) (st : TransactionState) : Nat :=
  match m with
  | .currentIndent => parentIndent
  | .offset n => parentIndent + n
  | .currentColumn =>
    let cc := st.currentColumn + (if st.needsWhitespace = some .blank then 1 else 0)
    max parentIndent cc

/-- `Transaction::calc_indent`: returns the resolved indent and the
transaction with the cache filled in (the source mutates `state.indent`
of this transaction and, recursively, of its ancestors). -/
def calcIndent : Transaction → Nat × Transaction
  | .root cfg st =>
    match st.indent with
    | some i => (i, .root cfg st)
    | none =>
      let v := indentFrom cfg.indent 0 st
      (v, .root cfg { st with indent := some v })
  | .child cfg st p =>
    match st.indent with
    | some i => (i, .child cfg st p)
    | none =>
      let (pi, p') := p.calcIndent
      let v := indentFrom cfg.indent pi st
      (v, .child cfg { st with indent := some v } p')

/-- One step of `Transaction::write`, processing a single character `c`.
The source also asserts that `c` is not a control character in the
visible-character branch; theorems below carry that as a hypothesis. -/
def writeChar (t : Transaction) (c : Char) : Except FmtError Transaction :=
  if c = '\n' then
    if t.config.multilineMode = .forbid then
      .error (.multiline t.state.nextPosition)
    else
      .ok (t.withState { t.state with
        currentColumn := 0,
        formattedText := t.state.formattedText ++ [c] })
  else
    if t.state.currentColumn ≥ t.config.maxColumns ∧ t.config.multilineMode ≠ .recommend then
      .error .maxColumnsExceeded
    else
      let t1 :=
        if c ≠ ' ' then
          let (ind, tc) := t.calcIndent
          if tc.state.currentColumn < ind then
            tc.withState { tc.state with
              formattedText := tc.state.formattedText ++
                List.replicate (ind - tc.state.currentColumn) ' ',
              currentColumn := ind }
          else tc
        else t
      .ok (t1.withState { t1.state with
        currentColumn := t1.state.currentColumn + 1,
        formattedText := t1.state.formattedText ++ [c] })

/-- `Transaction::write`: write a string character by character. -/
def write (t : Transaction) (s : List Char) : Except FmtError Transaction :=
  match s with
  | [] => .ok t
  | c :: rest => do
    let t1 ← t.writeChar c
    t1.write rest

/-- `Transaction::write_whitespace`: flush the pending whitespace request
(taking it out of the state first, as `Option::take` does). -/
def writeWhitespace (t : Transaction) : Except FmtError Transaction :=
  match t.state.needsWhitespace with
  | none => .ok t
  | some w =>
    let t0 := t.withState { t.state with needsWhitespace := none }
    match w with
    | .blank => t0.write [' ']
    | .newline => t0.write ['\n']

end Transaction

/-- The byte slice `text[a..b]` used by `write_item` and `write_comment`. -/
def sliceText (text : List Char) (a b : Nat) : List Char :=
  (text.drop a).take (b - a)

namespace Transaction

/-- `Transaction::write_item`: writes the item's source slice, preceded
by the pending-whitespace flush and, when the token starts more than one
line after `next_position`, one extra newline. The slice starts at
`max(item.start, next_position)` (skipping text already written, e.g. by
macros). -/
def writeItem (t : Transaction) (text : List Char) (item : SpanRec) :
    Except FmtError Transaction :=
  if item.isEmpty then .ok t
  else
    let start := max item.startPos.offset t.state.nextPosition.offset
    let endOff := max item.endPos.offset start
    if start = endOff then .ok t
    else do
      let s := sliceText text start endOff
      let t1 ← t.writeWhitespace
      let t2 ←
        if t1.state.nextPosition.line + 1 < item.startPos.line then
          t1.write ['\n']
        else
          .ok t1
      let t3 ← t2.write s
      .ok (t3.withState { t3.state with nextPosition := item.endPos })

/-- The whitespace-writing phase at the top of
`Transaction::write_comment`: flush a pending newline, then either write
the blank-line newline or the two-space separator before a trailing
comment. -/
def writeCommentWs (t : Transaction) (comment : SpanRec) :
    Except FmtError Transaction := do
  let t1 ←
    if t.state.needsWhitespace = some .newline then t.writeWhitespace
    else .ok t
  if t1.state.nextPosition.line + 1 < comment.startPos.line then
    t1.write ['\n']
  else if ¬((t1.lastChar.getD '\n') = '\n' ∨ (t1.lastChar.getD '\n') = ' ') then
    t1.write [' ', ' ']
  else
    .ok t1

/-- `Transaction::write_comment`: after the whitespace phase, the
comment's source slice is pushed directly onto the buffer (not through
`write`), the column advances by the slice length, `next_position` moves
to the comment's end, and a pending newline is requested. The source
asserts that the comment is non-empty. -/
def writeComment (t : Transaction) (text : List Char) (comment : SpanRec) :
    Except FmtError Transaction := do
  let t1 ← t.writeCommentWs comment
  let s := sliceText text comment.startPos.offset comment.endPos.offset
  let t2 := t1.withState { t1.state with
    formattedText := t1.state.formattedText ++ s,
    currentColumn := t1.state.currentColumn + s.length,
    nextPosition := comment.endPos }
  .ok (t2.requestWhitespace .newline)

end Transaction

/-- `TransactionState::clone_for_new_transaction`: same position, column
and pending whitespace; empty buffer; no cached indent. -/
def TransactionState.cloneForNewTransaction (s : TransactionState) : TransactionState :=
  { s with formattedText := [], indent := none }

/-- `TransactionState::copy_from_committed_transaction`: absorb the
committed child's position, column and pending whitespace, and append its
buffer; the receiving state's cached indent is not touched. -/
def TransactionState.copyFromCommittedTransaction
    (s committed : TransactionState) : TransactionState :=
  { s with
    nextPosition := committed.nextPosition,
    currentColumn := committed.currentColumn,
    needsWhitespace := committed.needsWhitespace,
    formattedText := s.formattedText ++ committed.formattedText }

namespace Transaction

/-- `Transaction::start_new_transaction(config)`: push a fresh child with
the given config on top of this transaction. -/
def startNewTransaction (t : Transaction) (cfg : TransactionConfig) : Transaction :=
  .child cfg t.state.cloneForNewTransaction t

/-- `Transaction::commit`: pop the child and absorb it into the parent.
The source panics when there is no parent; the `root` case here returns
the transaction unchanged and is never used by the theorems. -/
def commit : Transaction → Transaction
  | .root cfg st => .root cfg st
  | .child _ st p => p.withState (p.state.copyFromCommittedTransaction st)

/-- `Transaction::abort`: pop the child, reinstating the stored parent.
The source panics when there is no parent; the `root` case here returns
the transaction unchanged and is never used by the theorems. -/
def abort : Transaction → Transaction
  | .root cfg st => .root cfg st
  | .child _ _ p => p

/-- Render a list of visible tokens through `write_item`, as the grammar
items do when formatting one after another. -/
def renderTokens (t : Transaction) (text : List Char) :
    List SpanRec → Except FmtError Transaction
  | [] => .ok t
  | item :: rest => do
    let t1 ← t.writeItem text item
    t1.renderTokens text rest

end Transaction

/-! The region renderer of `src/format2.rs`: entry computation and retry
protocol of `ItemToString::format_region`. The `RegionWriter` it drives
(`src/format/region.rs`) is not under `src/`; the writer observations the
entry computation reads (`config().indent`, `parent_indent()`,
`current_column()`, `config().multi_line_mode`) are therefore taken as
parameters, and the body of a region is abstracted as a function of the
subregion config. -/

/-- `Indent` from `src/format2.rs`. -/
inductive Indent where
  | CurrentColumn
  | Inherit
  | Offset (n : Nat)
  | ParentOffset (n : Nat)
deriving DecidableEq, Repr

/-- `NewlineIf` from `src/format2.rs`. -/
structure NewlineIf where
  tooLong : Bool
  multiLine : Bool
  multiLineParent : Bool
deriving DecidableEq, Repr

/-- `Newline` from `src/format2.rs`. -/
inductive Newline where
  | Always
  | Never
  | If (cond : NewlineIf)
deriving DecidableEq, Repr

/-- `RegionConfig` from `src/format/region.rs` as constructed by
`ItemToString::format_region` (the `trailing_columns` field is always 0
there, marked TODO DELETE in the source). -/
structure RegionConfig where
  maxColumns : Nat
  indent : Nat
  trailingColumns : Nat
  allowMultiLine : Bool
  allowTooLongLine : Bool
  multiLineMode : Bool
deriving DecidableEq, Repr

/-- The five values `ItemToString::format_region` computes on entry to a
region, before starting the first subtransaction. -/
structure EntryParams where
  indent : Nat
  needsNewline : Bool
  allowMultiLine : Bool
  allowTooLongLine : Bool
  checkMultiLineParent : Bool
deriving DecidableEq, Repr

/-- The entry computation of `ItemToString::format_region`
(`src/format2.rs` lines 190-225): resolve the indent from the indent
policy and decide `needs_newline`, `allow_multi_line`,
`allow_too_long_line` and `check_multi_line_parent` from the newline
policy. `cfgIndent` is `self.writer.config().indent`, `parentIndent` is
`self.writer.parent_indent()`, `currentColumn` is
`self.writer.current_column()` and `multiLineMode` is
`self.writer.config().multi_line_mode`. -/
def regionEntry (ind : Indent) (nl : Newline)
    (cfgIndent parentIndent currentColumn : Nat) (multiLineMode : Bool) :
    EntryParams :=
  let indent :=
    match ind with
    | .Inherit => cfgIndent
    | .Offset n => cfgIndent + n
    | .ParentOffset n => parentIndent + n
    | .CurrentColumn =>
      if currentColumn = 0 then cfgIndent else currentColumn
  let p : EntryParams :=
    { indent := indent, needsNewline := false, allowMultiLine := true,
      allowTooLongLine := true, checkMultiLineParent := false }
  match nl with
  | .Always => { p with needsNewline := true }
  | .Never => p
  | .If cond =>
    let p := { p with
      allowMultiLine := !cond.multiLine,
      allowTooLongLine := !cond.tooLong }
    if cond.multiLineParent then
      if multiLineMode then { p with needsNewline := true }
      else { p with checkMultiLineParent := true, allowMultiLine := false }
    else p

/-- Which rendering attempt of a region the body is being run for. On a
`second` attempt, `needsNewline = true` means the retry closure forces a
leading newline (emitted unless the current column is already at or
before the resolved indent, per the source's `column_before_newline`
check), and `multiLineMode` is the flag of the retry config. -/
inductive Attempt where
  | first (needsNewline : Bool)
  | second (needsNewline : Bool) (multiLineMode : Bool)
deriving DecidableEq, Repr

/-- The config of the first rendering attempt of a region
(`src/format2.rs` lines 227-234). -/
def firstConfig (maxColumns : Nat) (p : EntryParams) : RegionConfig :=
  { maxColumns := maxColumns, indent := p.indent, trailingColumns := 0,
    allowMultiLine := p.allowMultiLine,
    allowTooLongLine := p.allowTooLongLine, multiLineMode := false }

/-- The config of the retried attempt (`src/format2.rs` lines 252-259). -/
def retryConfig (maxColumns : Nat) (p : EntryParams) (mlm : Bool) : RegionConfig :=
  { maxColumns := maxColumns, indent := p.indent, trailingColumns := 0,
    allowMultiLine := true, allowTooLongLine := true, multiLineMode := mlm }

/-- The retry decision of `ItemToString::format_region`
(`src/format2.rs` lines 242-250), mirroring the match on the first
attempt's error: `some (needsNewline, multiLineMode)` to retry, `none`
to propagate. The `check_multi_line_parent` arm is handled by the
caller, as in the source. -/
def retryDecision (p : EntryParams) (e : FmtError) : Option (Bool × Bool) :=
  match e with
  | .multiLine => if !p.allowMultiLine then some (true, false) else none
  | .lineTooLong => if !p.allowTooLongLine then some (true, false) else none
  | .multiLineParent => some (p.needsNewline, true)
  | _ => none

/-- The transactional control flow of `ItemToString::format_region`
(`src/format2.rs` lines 235-272), with the rendering of the region body
abstracted as `body`: run the first attempt; on success, done; on
failure, convert to `MultiLineParent` when `check_multi_line_parent` was
set, retry once under the relaxed config when the retry decision says
so, and propagate otherwise. The result of a retried attempt is returned
as is. -/
def formatRegionCtl (maxColumns : Nat) (p : EntryParams)
    (body : RegionConfig → Attempt → Except FmtError Unit) :
    Except FmtError Unit :=
  match body (firstConfig maxColumns p) (.first p.needsNewline) with
  | .ok _ => .ok ()
  | .error e =>
    if p.checkMultiLineParent then .error .multiLineParent
    else
      match retryDecision p e with
      | some (nn, mlm) => body (retryConfig maxColumns p mlm) (.second nn mlm)
      | none => .error e

/-! The layout tree builder of `src/format2.rs`. -/

/-- The kind tag of a visible token. The `VisibleToken` type itself is
not under `src/` (only its callers are); the builder only reads a
token's span and compares kinds through the needs-space predicate, which
is kept abstract, so a kind tag plus a span is a faithful model. The
`commentTok` kind is used by the spec-modelled comment emission. -/
inductive TokKind where
  | atom
  | integerTok
  | symbolTok
  | keywordTok
  | commentTok
deriving DecidableEq, Repr

/-- A visible token: a kind and a span. -/
structure VisibleToken where
  kind : TokKind
  startPos : Position
  endPos : Position
deriving DecidableEq, Repr

/-- `CommentKind` from `src/items/tokens.rs`. -/
inductive CommentKind where
  | post
  | trailing
deriving DecidableEq, Repr

/-- `CommentToken` from `src/items/tokens.rs`: a span plus a kind. -/
structure CommentTok where
  kind : CommentKind
  startPos : Position
  endPos : Position
deriving DecidableEq, Repr

mutual
/-- `Item` from `src/format2.rs`: the layout tree. The `Vec<Item>` held
by a region is represented by the companion `ItemList` type so that all
recursions over the tree are structural. -/
inductive Item where
  | token (t : VisibleToken)
  | space (n : Nat)
  | newline (n : Nat)
  | region (indent : Indent) (newline : Newline) (items : ItemList)
deriving DecidableEq, Repr
/-- A list of layout items (the `Vec<Item>` of a region). -/
inductive ItemList where
  | nil
  | cons (head : Item) (tail : ItemList)
deriving DecidableEq, Repr
end

/-- Concatenation of item lists. -/
def ItemList.append : ItemList → ItemList → ItemList
  | .nil, ys => ys
  | .cons x xs, ys => .cons x (xs.append ys)

/-- `Vec::push`: append one item at the end. -/
def ItemList.push (xs : ItemList) (x : Item) : ItemList :=
  xs.append (.cons x .nil)

/-- `Item::new`: the root region. -/
def Item.new : Item := .region .CurrentColumn .Never .nil

mutual
/-- `Item::add_token` (`src/format2.rs` lines 326-336): if the region's
last item is itself a region, recurse into that region; otherwise push
`Token(token)` at the end. The source is only called on regions
(`unreachable!()` otherwise); non-region items are returned unchanged
here. -/
def Item.addToken : Item → VisibleToken → Item
  | .region i n its, tok => .region i n (its.addTokenLast tok)
  | other, _ => other
/-- The `items.last_mut()` recursion of `Item::add_token`: walking to
the last element, then either descending into it (when it is a region,
as `Item::add_token` does on it) or pushing the new token after it. -/
def ItemList.addTokenLast : ItemList → VisibleToken → ItemList
  | .nil, tok => .cons (.token tok) .nil
  | .cons x .nil, tok =>
    match x with
    | .region i n its => .cons (.region i n (its.addTokenLast tok)) .nil
    | _ => .cons x (.cons (.token tok) .nil)
  | .cons x (.cons y rest), tok => .cons x ((ItemList.cons y rest).addTokenLast tok)
end

mutual
/-- `Item::add_region` (`src/format2.rs` lines 338-348): if the region's
last item is itself a region, recurse into that region; otherwise push
the completed region at the end. -/
def Item.addRegion : Item → Item → Item
  | .region i n its, reg => .region i n (its.addRegionLast reg)
  | other, _ => other
/-- The `items.last_mut()` recursion of `Item::add_region`. -/
def ItemList.addRegionLast : ItemList → Item → ItemList
  | .nil, reg => .cons reg .nil
  | .cons x .nil, reg =>
    match x with
    | .region i n its => .cons (.region i n (its.addRegionLast reg)) .nil
    | _ => .cons x (.cons reg .nil)
  | .cons x (.cons y rest), reg => .cons x ((ItemList.cons y rest).addRegionLast reg)
end

/-- `Item::add_space`: pushed directly onto the region's item list (not
into the last descendant region chain). -/
def Item.addSpace : Item → Nat → Item
  | .region i n its, k => .region i n (its.push (.space k))
  | other, _ => other

/-- `Item::add_newline`: pushed directly onto the region's item list. -/
def Item.addNewline : Item → Nat → Item
  | .region i n its, k => .region i n (its.push (.newline k))
  | other, _ => other

/-- Whether an item is a region. -/
def Item.isRegion : Item → Bool
  | .region _ _ _ => true
  | _ => false

/-- A node of the flattened layout tree (regions erased, leaves kept in
depth-first order). -/
inductive FlatNode where
  | tok (t : VisibleToken)
  | sp (n : Nat)
  | nl (n : Nat)
deriving DecidableEq, Repr

mutual
/-- Flatten one item into its depth-first leaf sequence. -/
def Item.flatOf : Item → List FlatNode
  | .token t => [.tok t]
  | .space n => [.sp n]
  | .newline n => [.nl n]
  | .region _ _ its => its.flats
/-- Flatten a forest of items into its depth-first leaf sequence. -/
def ItemList.flats : ItemList → List FlatNode
  | .nil => []
  | .cons x xs => x.flatOf ++ xs.flats
end

/-- The visible tokens of a flattened forest, in order. -/
def tokensOfFlat (l : List FlatNode) : List VisibleToken :=
  l.filterMap (fun n => match n with | .tok t => some t | _ => none)

/-- The visible tokens of an item, in depth-first order. -/
def Item.tokensOf (it : Item) : List VisibleToken := tokensOfFlat it.flatOf

/-- The builder state of `Formatter2` (`src/format2.rs`): the tree under
construction, the comment table (modelled as a list sorted by start
position, as `BTreeMap` iteration yields it), the builder's
`next_position` and the last visible token. The source text and macro
table are omitted: the builder operations embedded here do not read them
(macro handling is a TODO in the source). -/
structure Formatter2 where
  item : Item
  comments : List CommentTok
  nextPosition : Position
  lastToken : Option VisibleToken
deriving DecidableEq, Repr

/-- The loop of `Formatter2::add_macros_and_comments`, walking the sorted
comment table: the source repeatedly takes the first comment at or after
`next_position`, stops when it starts after the incoming token's start,
and otherwise advances `next_position` to the comment's end and emits it
via its `Format2` implementation. The source leaves the `BTreeMap`
intact and skips by position; this model consumes the sorted list, which
agrees with the source for comment tables whose entries are strictly
sorted and end after they start. -/
def addCommentsGo (emit : CommentTok → Formatter2 → Formatter2)
    (tokStart : Position) : List CommentTok → Formatter2 → Formatter2
  | [], fmt => { fmt with comments := [] }
  | c :: rest, fmt =>
    if c.startPos.offset < fmt.nextPosition.offset then
      addCommentsGo emit tokStart rest { fmt with comments := rest }
    else if tokStart.offset < c.startPos.offset then
      { fmt with comments := c :: rest }
    else
      addCommentsGo emit tokStart rest
        (emit c { fmt with nextPosition := c.endPos, comments := rest })

/-- `Formatter2::add_token` (`src/format2.rs` lines 59-75),
parameterized by the needs-space predicate `ns`
(`VisibleToken::needs_space` is not under `src/`) and by the comment
emission `emit` (`CommentToken`'s `Format2` implementation, not under
`src/`): first the implicit space when the predicate holds for the last
token, then the pending comments, then the token itself; finally
`last_token` and `next_position` are updated. -/
def Formatter2.addToken (ns : VisibleToken → VisibleToken → Bool)
    (emit : CommentTok → Formatter2 → Formatter2)
    (fmt : Formatter2) (token : VisibleToken) : Formatter2 :=
  let fmt1 :=
    match fmt.lastToken with
    | some last =>
      if ns last token then { fmt with item := fmt.item.addSpace 1 } else fmt
    | none => fmt
  let fmt2 := addCommentsGo emit token.startPos fmt1.comments fmt1
  let fmt3 := { fmt2 with
    lastToken := some token, item := fmt2.item.addToken token }
  { fmt3 with nextPosition := token.endPos }

/-- `Formatter2::subregion`: push a fresh region, run `f` inside it, pop
it and append it through `Item::add_region`. -/
def Formatter2.subregion (ind : Indent) (nl : Newline)
    (f : Formatter2 → Formatter2) (fmt : Formatter2) : Formatter2 :=
  let parent := fmt.item
  let fmt1 := f { fmt with item := .region ind nl .nil }
  { fmt1 with item := parent.addRegion fmt1.item }

/-- The visible-token view of a comment used by the spec-modelled
comment emission. -/
def commentVisible (c : CommentTok) : VisibleToken :=
  ⟨.commentTok, c.startPos, c.endPos⟩

/-- Modelled from the spec: the `Format2` implementation for
`CommentToken` is not under `src/`. Spec section 4.1 says the builder
emits each comment as a token with an appropriate preceding newline; a
`Post` comment stands on its own line (so it is preceded by a newline)
while a `Trailing` comment follows code on the same line. -/
def commentEmitSpec (c : CommentTok) (fmt : Formatter2) : Formatter2 :=
  let it := if c.kind = .post then fmt.item.addNewline 1 else fmt.item
  { fmt with item := it.addToken (commentVisible c) }

/-! Spec-worded definitions, to be compared with the source embeddings. -/

/-- Indent resolution as claim C4 and spec section 4.3 state it:
`Inherit` takes the parent transaction's indent `pIndent`, `Offset n`
adds `n` to it, `ParentOffset n` adds `n` to the parent-of-parent indent
`ppIndent`, and `CurrentColumn` takes the current column when positive
and the parent's indent otherwise. -/
def specIndentClaim (ind : Indent) (pIndent ppIndent pCol : Nat) : Nat :=
  match ind with
  | .Inherit => pIndent
  | .Offset n => pIndent + n
  | .ParentOffset n => ppIndent + n
  | .CurrentColumn => if pCol > 0 then pCol else pIndent

/-- The allow-multi-line rule as claim C3 states it: false iff the
newline policy is `If` with the `multi_line` condition set and the
parent is not in multi-line mode. -/
def specAllowMultiLineClaim (nl : Newline) (mlm : Bool) : Bool :=
  match nl with
  | .If cond => !(cond.multiLine && !mlm)
  | _ => true

/-- The builder step in the order claim C5 states it: first the pending
comments, then the implicit space, then the token. Used only to exhibit
the divergence from the source's order. -/
def specAddTokenClaim (ns : VisibleToken → VisibleToken → Bool)
    (emit : CommentTok → Formatter2 → Formatter2)
    (fmt : Formatter2) (token : VisibleToken) : Formatter2 :=
  let fmt1 := addCommentsGo emit token.startPos fmt.comments fmt
  let fmt2 :=
    match fmt1.lastToken with
    | some last =>
      if ns last token then { fmt1 with item := fmt1.item.addSpace 1 } else fmt1
    | none => fmt1
  let fmt3 := { fmt2 with
    lastToken := some token, item := fmt2.item.addToken token }
  { fmt3 with nextPosition := token.endPos }

/-- The flat nodes contributed by the comments that
`add_macros_and_comments` consumes before a token starting at
`tokStart`, when the comments are emitted by `commentEmitSpec`. -/
def goFlats (tokStart : Position) : List CommentTok → Position → List FlatNode
  | [], _ => []
  | c :: rest, next =>
    if c.startPos.offset < next.offset then goFlats tokStart rest next
    else if tokStart.offset < c.startPos.offset then []
    else
      (if c.kind = .post then [FlatNode.nl 1] else []) ++
        (FlatNode.tok (commentVisible c) :: goFlats tokStart rest c.endPos)

/-- The flat node contributed by the implicit needs-space separator in
`Formatter2::add_token`. -/
def spaceFlat (ns : VisibleToken → VisibleToken → Bool)
    (lastTok : Option VisibleToken) (token : VisibleToken) : List FlatNode :=
  match lastTok with
  | some last => if ns last token then [FlatNode.sp 1] else []
  | none => []

/-! Generic helpers for whitespace-interleaving statements. -/

/-- Whether a character is layout whitespace (a space or a newline). -/
def isWsChar (c : Char) : Bool := c == ' ' || c == '\n'

/-- Whether a string consists only of layout whitespace. -/
def wsOnly (s : List Char) : Bool := s.all isWsChar

/-- Whether a string contains no newline. -/
def noNewline (s : List Char) : Bool := s.all (fun c => c ≠ '\n')

/-- Whether `p` is a prefix of `s` (character lists). -/
def listIsPrefix (p s : List Char) : Bool :=
  match p, s with
  | [], _ => true
  | _ :: _, [] => false
  | a :: as, b :: bs => a == b && listIsPrefix as bs

/-- Whether `p` occurs contiguously inside `s` (character lists). -/
def listHasInfix (s p : List Char) : Bool :=
  match s with
  | [] => p.isEmpty
  | _ :: rest => listIsPrefix p s || listHasInfix rest p

/-- Interleave separators and payload strings:
`interleave [w0, w1, ..., wn] [s1, ..., sn] = w0 ++ s1 ++ w1 ++ ... ++ sn ++ wn`. -/
def interleave : List (List Char) → List (List Char) → List Char
  | [], _ => []
  | w :: _, [] => w
  | w :: ws, s :: ss => w ++ s ++ interleave ws ss

/-- Well-formedness of a token chain for rendering, starting with
`next_position` at offset `bound`: every token is non-empty, lies within
the text, starts at or after the previous end, and its source slice has
no embedded newline and does not begin with a space (true of every real
token of the source language). -/
def goodChain (text : List Char) : Nat → List SpanRec → Prop
  | _, [] => True
  | bound, item :: rest =>
    bound ≤ item.startPos.offset ∧
    item.startPos.offset < item.endPos.offset ∧
    item.endPos.offset ≤ text.length ∧
    noNewline (sliceText text item.startPos.offset item.endPos.offset) = true ∧
    (sliceText text item.startPos.offset item.endPos.offset).head? ≠ some ' ' ∧
    goodChain text item.endPos.offset rest

instance (text : List Char) (bound : Nat) (l : List SpanRec) :
    Decidable (goodChain text bound l) := by
  induction l generalizing bound with
  | nil => exact isTrue trivial
  | cons item rest ih =>
    have : Decidable (goodChain text item.endPos.offset rest) := ih _
    unfold goodChain
    exact inferInstance

/-! Relations used by the frame statement for commit/abort. -/

/-- Equality of transaction states up to the cached indent. -/
def stateEqExceptIndent (s1 s2 : TransactionState) : Prop :=
  s1.nextPosition = s2.nextPosition ∧ s1.currentColumn = s2.currentColumn ∧
  s1.needsWhitespace = s2.needsWhitespace ∧ s1.formattedText = s2.formattedText

/-- Equality of transactions up to the cached indents along the whole
parent chain. -/
def eqExceptIndent : Transaction → Transaction → Prop
  | .root c1 s1, .root c2 s2 => c1 = c2 ∧ stateEqExceptIndent s1 s2
  | .child c1 s1 p1, .child c2 s2 p2 =>
    c1 = c2 ∧ stateEqExceptIndent s1 s2 ∧ eqExceptIndent p1 p2
  | _, _ => False

/-- The parents of two transactions agree up to cached indents (always
true for two roots, which have no parent). -/
def parentsEqExceptIndent (t t' : Transaction) : Prop :=
  match t, t' with
  | .root _ _, .root _ _ => True
  | .child _ _ p, .child _ _ p' => eqExceptIndent p p'
  | _, _ => False

/-! Concrete instances used by witnesses and counterexamples. -/

/-- A transaction whose next visible write must fail: the column is at
the limit and the mode is not `Recommend`. -/
def c6T : Transaction :=
  .root { indent := .offset 0, maxColumns := 3, multilineMode := .allow }
    { nextPosition := ⟨0, 0, 0⟩, currentColumn := 3, needsWhitespace := none,
      formattedText := ['a', 'b', 'c'], indent := some 0 }

/-- Entry params of a region with `If { multi_line }` under a parent not
in multi-line mode: the first failing attempt must be retried. -/
def c2P : EntryParams :=
  { indent := 0, needsNewline := false, allowMultiLine := false,
    allowTooLongLine := true, checkMultiLineParent := false }

/-- A region body failing with `MultiLine` on the first attempt and
succeeding on the retry. -/
def c2Body : RegionConfig → Attempt → Except FmtError Unit :=
  fun _ a =>
    match a with
    | .first _ => .error .multiLine
    | .second _ _ => .ok ()

/-- A token used in builder instances. -/
def c9tok : VisibleToken := ⟨.atom, ⟨0, 0, 0⟩, ⟨0, 3, 3⟩⟩

/-- A transaction writing under resolved indent 2 with multi-line output
allowed: rendering a token whose slice embeds a newline re-indents the
slice's continuation. -/
def c1T : Transaction :=
  .root { indent := .offset 2, maxColumns := 100, multilineMode := .allow }
    { nextPosition := ⟨0, 0, 0⟩, currentColumn := 0, needsWhitespace := none,
      formattedText := [], indent := none }

/-- A source text that is a single token with an embedded newline. -/
def c1Text : List Char := ['x', '\n', 'y']

/-- The token spanning the whole of `c1Text`. -/
def c1Item : SpanRec := ⟨⟨0, 0, 0⟩, ⟨1, 1, 3⟩⟩

/-- A root transaction with indent offset 0. -/
def c1wT : Transaction :=
  .root { indent := .offset 0, maxColumns := 100, multilineMode := .allow }
    { nextPosition := ⟨0, 0, 0⟩, currentColumn := 0, needsWhitespace := none,
      formattedText := [], indent := none }

/-- A two-token source text. -/
def c1wText : List Char := ['a', 'b']

/-- The two adjacent tokens of `c1wText`. -/
def c1wItems : List SpanRec := [⟨⟨0, 0, 0⟩, ⟨0, 1, 1⟩⟩, ⟨⟨0, 1, 1⟩, ⟨0, 2, 2⟩⟩]

/-- The result of rendering `c1wItems` from `c1wT`. -/
def c1wT' : Transaction :=
  .root { indent := .offset 0, maxColumns := 100, multilineMode := .allow }
    { nextPosition := ⟨0, 2, 2⟩, currentColumn := 2, needsWhitespace := none,
      formattedText := ['a', 'b'], indent := some 0 }

/-- A fresh transaction at line 0 with indent offset 2. -/
def c7T : Transaction :=
  .root { indent := .offset 2, maxColumns := 100, multilineMode := .allow }
    { nextPosition := ⟨0, 0, 0⟩, currentColumn := 0, needsWhitespace := none,
      formattedText := [], indent := none }

/-- A two-character source text. -/
def c7Text : List Char := ['q', 'r']

/-- A token starting on line 2, more than one line after `c7T`'s
`next_position` (line 0): writing it must insert one blank line. -/
def c7Item : SpanRec := ⟨⟨2, 0, 0⟩, ⟨2, 2, 2⟩⟩

/-- The result of `c7T.writeItem c7Text c7Item`. -/
def c7T' : Transaction :=
  .root { indent := .offset 2, maxColumns := 100, multilineMode := .allow }
    { nextPosition := ⟨2, 2, 2⟩, currentColumn := 4, needsWhitespace := none,
      formattedText := ['\n', ' ', ' ', 'q', 'r'], indent := some 2 }

/-- A parent transaction whose indent cache is still empty. -/
def c8Parent : Transaction :=
  .root { indent := .offset 0, maxColumns := 100, multilineMode := .allow }
    { nextPosition := ⟨0, 0, 0⟩, currentColumn := 0, needsWhitespace := none,
      formattedText := [], indent := none }

/-- The config of a child transaction with indent offset 2. -/
def c8Cfg : TransactionConfig :=
  { indent := .offset 2, maxColumns := 100, multilineMode := .allow }

/-- The child transaction pushed on `c8Parent`. -/
def c8Child : Transaction := c8Parent.startNewTransaction c8Cfg

/-- The result of writing one character inside `c8Child`: the indent
calculation has filled in the caches of the child and of the stored
parent. -/
def c8Child' : Transaction :=
  .child { indent := .offset 2, maxColumns := 100, multilineMode := .allow }
    { nextPosition := ⟨0, 0, 0⟩, currentColumn := 3, needsWhitespace := none,
      formattedText := [' ', ' ', 'x'], indent := some 2 }
    (.root { indent := .offset 0, maxColumns := 100, multilineMode := .allow }
      { nextPosition := ⟨0, 0, 0⟩, currentColumn := 0, needsWhitespace := none,
        formattedText := [], indent := some 0 })

/-- A fresh transaction for the comment-writing witness. -/
def c10T : Transaction :=
  .root { indent := .offset 0, maxColumns := 10, multilineMode := .allow }
    { nextPosition := ⟨0, 0, 0⟩, currentColumn := 0, needsWhitespace := none,
      formattedText := [], indent := none }

/-- A source text that is a single comment. -/
def c10Text : List Char := ['%', 'a', 'b']

/-- The comment spanning the whole of `c10Text`. -/
def c10Comment : SpanRec := ⟨⟨0, 0, 0⟩, ⟨0, 3, 3⟩⟩

/-- A needs-space predicate that always requires a separator (as the
spec's canonical rules do for two alphanumeric tokens, which is what the
concrete builder instances use). -/
def ns5 : VisibleToken → VisibleToken → Bool := fun _ _ => true

/-- The first builder token (an atom on line 0). -/
def c5a : VisibleToken := ⟨.atom, ⟨0, 0, 0⟩, ⟨0, 1, 1⟩⟩

/-- The second builder token (an atom on line 2, after the comment). -/
def c5b : VisibleToken := ⟨.atom, ⟨2, 0, 8⟩, ⟨2, 1, 9⟩⟩

/-- A post comment lying between `c5a` and `c5b`. -/
def c5comment : CommentTok := ⟨.post, ⟨1, 0, 2⟩, ⟨1, 5, 7⟩⟩

/-- A builder state that has just appended `c5a`, with `c5comment`
pending. -/
def c5fmt : Formatter2 :=
  { item := .region .CurrentColumn .Never (.cons (.token c5a) .nil),
    comments := [c5comment], nextPosition := ⟨0, 1, 1⟩, lastToken := some c5a }

/-! Helper lemmas. -/

@[simp]
theorem Transaction.state_withState (t : Transaction) (s : TransactionState) :
    (t.withState s).state = s := by
  cases t <;> rfl

@[simp]
theorem Transaction.config_withState (t : Transaction) (s : TransactionState) :
    (t.withState s).config = t.config := by
  cases t <;> rfl

@[simp]
theorem Transaction.parentOf_withState (t : Transaction) (s : TransactionState) :
    (t.withState s).parentOf = t.parentOf := by
  cases t <;> rfl

@[simp]
theorem Transaction.withState_withState (t : Transaction)
    (a b : TransactionState) : (t.withState a).withState b = t.withState b := by
  cases t <;> rfl

theorem calcIndent_state (t : Transaction) :
    ((t.calcIndent).2).state = { t.state with indent := some (t.calcIndent).1 }
    ∧ ((t.calcIndent).2).config = t.config := by
  cases t with
  | root cfg st =>
    cases h : st.indent with
    | none =>
      simp [Transaction.calcIndent, h, Transaction.state, Transaction.config]
    | some i =>
      simp only [Transaction.calcIndent, h, Transaction.state, Transaction.config]
      exact ⟨by cases st; simp_all, trivial⟩
  | child cfg st p =>
    cases h : st.indent with
    | none =>
      rcases hp : p.calcIndent with ⟨pi, p'⟩
      simp [Transaction.calcIndent, h, hp, Transaction.state, Transaction.config]
    | some i =>
      simp only [Transaction.calcIndent, h, Transaction.state, Transaction.config]
      exact ⟨by cases st; simp_all, trivial⟩

theorem writeChar_newline_ok (t : Transaction)
    (hmode : t.config.multilineMode ≠ .forbid) :
    t.writeChar '\n' = Except.ok (t.withState { t.state with
      currentColumn := 0,
      formattedText := t.state.formattedText ++ ['\n'] }) := by
  simp [Transaction.writeChar, hmode]

theorem writeChar_space_ok (t : Transaction)
    (hcond : ¬(t.config.maxColumns ≤ t.state.currentColumn ∧
      t.config.multilineMode ≠ .recommend)) :
    t.writeChar ' ' = Except.ok (t.withState { t.state with
      currentColumn := t.state.currentColumn + 1,
      formattedText := t.state.formattedText ++ [' '] }) := by
  simp [Transaction.writeChar, hcond]

theorem writeChar_visible_ok (t : Transaction) (c : Char)
    (hnl : c ≠ '\n') (hsp : c ≠ ' ')
    (hcond : ¬(t.config.maxColumns ≤ t.state.currentColumn ∧
      t.config.multilineMode ≠ .recommend)) :
    t.writeChar c = Except.ok ((t.calcIndent).2.withState
      { (t.calcIndent).2.state with
        formattedText := (t.calcIndent).2.state.formattedText ++
          List.replicate
            ((t.calcIndent).1 - (t.calcIndent).2.state.currentColumn) ' ' ++ [c],
        currentColumn :=
          max (t.calcIndent).1 (t.calcIndent).2.state.currentColumn + 1 }) := by
  rcases hci : t.calcIndent with ⟨ind, tc⟩
  simp only [Transaction.writeChar, if_neg hnl, if_neg hcond, if_pos hsp, hci]
  by_cases hlt : tc.state.currentColumn < ind
  · simp only [if_pos hlt, Transaction.state_withState,
      Transaction.withState_withState]
    have hmax : max ind tc.state.currentColumn = ind := by omega
    rw [hmax, List.append_assoc]
  · simp only [if_neg hlt, Transaction.state_withState,
      Transaction.withState_withState]
    have hmax : max ind tc.state.currentColumn = tc.state.currentColumn := by omega
    have hrep : ind - tc.state.currentColumn = 0 := by omega
    rw [hmax, hrep]
    simp

theorem ifColZero (cfgI col : Nat) :
    (if col = 0 then cfgI else col) = if col > 0 then col else cfgI := by
  rcases Nat.eq_zero_or_pos col with h | h
  · simp [h]
  · simp [h, Nat.pos_iff_ne_zero.mp h]

/-! Claim C4. -/

/-- Claim C4 (confirmed): on entry to a region, the resolved indent is
the parent transaction's indent for `Inherit`, the parent's indent plus
`n` for `Offset(n)`, the parent-of-parent's indent plus `n` for
`ParentOffset(n)`, and for `CurrentColumn` the current column when
positive, else the parent's indent — the source's entry computation
agrees with the spec-worded table for every policy and writer state. -/
theorem claim_c4_indent_resolution :
    ∀ (ind : Indent) (nl : Newline) (cfgIndent parentIndent currentColumn : Nat)
      (mlm : Bool),
    (regionEntry ind nl cfgIndent parentIndent currentColumn mlm).indent
      = specIndentClaim ind cfgIndent parentIndent currentColumn := by
  intro ind nl cfgI pI col mlm
  cases nl with
  | Always => cases ind <;> simp [regionEntry, specIndentClaim, ifColZero]
  | Never => cases ind <;> simp [regionEntry, specIndentClaim, ifColZero]
  | If cond =>
    rcases cond with ⟨tl, ml, mlp⟩
    cases mlp <;> cases mlm <;> cases ind <;>
      simp [regionEntry, specIndentClaim, ifColZero]

/-! Claim C3. -/

/-- Claim C3 counterexample: a region whose newline policy is
`If { multi_line }` entered while the parent transaction is already in
multi-line mode. The claim says `allow_multi_line` is true there; the
source (`src/format2.rs` line 213) sets `allow_multi_line = !multi_line`
regardless of the parent's mode, so it is false. -/
theorem claim_c3_counterexample :
    (regionEntry .Inherit (.If ⟨false, true, false⟩) 0 0 0 true).allowMultiLine = false
    ∧ specAllowMultiLineClaim (.If ⟨false, true, false⟩) true = true :=
  ⟨rfl, rfl⟩

/-- Claim C3 amended (proved): on entry to a region, `allow_multi_line`
is false iff the newline policy is `If` and either the `multi_line`
condition is set (regardless of the parent's mode), or the
`multi_line_parent` condition is set and the parent transaction is not
in multi-line mode. -/
theorem claim_c3_amended :
    ∀ (ind : Indent) (nl : Newline) (cfgIndent parentIndent currentColumn : Nat)
      (mlm : Bool),
    ((regionEntry ind nl cfgIndent parentIndent currentColumn mlm).allowMultiLine
        = false)
    ↔ (∃ cond, nl = .If cond ∧
        (cond.multiLine = true ∨ (cond.multiLineParent = true ∧ mlm = false))) := by
  intro ind nl cfgI pI col mlm
  cases nl with
  | Always => simp [regionEntry]
  | Never => simp [regionEntry]
  | If cond =>
    rcases cond with ⟨tl, ml, mlp⟩
    cases ml <;> cases mlp <;> cases mlm <;> simp [regionEntry]

/-- Claim C3 witness: the amended rule applied at a concrete input
(policy `If { multi_line_parent }`, parent not in multi-line mode). -/
theorem claim_c3_witness :
    (regionEntry .Inherit (.If ⟨false, false, true⟩) 0 0 0 false).allowMultiLine
      = false :=
  (claim_c3_amended .Inherit (.If ⟨false, false, true⟩) 0 0 0 false).mpr
    ⟨⟨false, false, true⟩, rfl, Or.inr ⟨rfl, rfl⟩⟩

/-! Claim C2. -/

/-- Claim C2 (confirmed): the retry protocol of
`ItemToString::format_region`. When the first rendering attempt of a
region fails with error `e`: (1) if `check_multi_line_parent` was set at
entry, the failure is converted to `MultiLineParent` and propagated with
no local retry; otherwise (2) `MultiLine` with `allow_multi_line` false,
or `LineTooLong` with `allow_too_long_line` false, causes exactly one
retry with `allow_multi_line = true`, `allow_too_long_line = true`, a
forced leading newline and `multi_line_mode = false` (the whole result
is that single retried attempt, so its failure propagates); (3)
`MultiLineParent` causes one retry with `multi_line_mode = true`; (4)
every other failure propagates unchanged. -/
theorem claim_c2_retry_protocol :
    ∀ (maxColumns : Nat) (p : EntryParams)
      (body : RegionConfig → Attempt → Except FmtError Unit) (e : FmtError),
    body (firstConfig maxColumns p) (.first p.needsNewline) = .error e →
    ((p.checkMultiLineParent = true →
        formatRegionCtl maxColumns p body = .error .multiLineParent)
     ∧ (p.checkMultiLineParent = false →
        (((e = .multiLine ∧ p.allowMultiLine = false) ∨
          (e = .lineTooLong ∧ p.allowTooLongLine = false)) →
          formatRegionCtl maxColumns p body
            = body (retryConfig maxColumns p false) (.second true false))
        ∧ (e = .multiLineParent →
          formatRegionCtl maxColumns p body
            = body (retryConfig maxColumns p true) (.second p.needsNewline true))
        ∧ (e = .multiLine → p.allowMultiLine = true →
          formatRegionCtl maxColumns p body = .error e)
        ∧ (e = .lineTooLong → p.allowTooLongLine = true →
          formatRegionCtl maxColumns p body = .error e)
        ∧ (∀ pos, e = .multiline pos →
          formatRegionCtl maxColumns p body = .error e)
        ∧ (e = .maxColumnsExceeded →
          formatRegionCtl maxColumns p body = .error e))) := by
  intro mx p body e hbody
  constructor
  · intro hc
    simp [formatRegionCtl, hbody, hc]
  · intro hc
    refine ⟨?_, ?_, ?_, ?_, ?_, ?_⟩
    · rintro (⟨he, ha⟩ | ⟨he, ha⟩) <;> subst he <;>
        simp [formatRegionCtl, hbody, hc, retryDecision, ha]
    · intro he; subst he
      simp [formatRegionCtl, hbody, hc, retryDecision]
    · intro he ha; subst he
      simp [formatRegionCtl, hbody, hc, retryDecision, ha]
    · intro he ha; subst he
      simp [formatRegionCtl, hbody, hc, retryDecision, ha]
    · intro pos he; subst he
      simp [formatRegionCtl, hbody, hc, retryDecision]
    · intro he; subst he
      simp [formatRegionCtl, hbody, hc, retryDecision]

/-- Claim C2 witness: the retry rule applied at a concrete input — a
region forbidding multi-line output whose body fails with `MultiLine` on
the first attempt and succeeds on the retry. -/
theorem claim_c2_witness :
    formatRegionCtl 100 c2P c2Body
      = c2Body (retryConfig 100 c2P false) (.second true false) :=
  ((claim_c2_retry_protocol 100 c2P c2Body .multiLine rfl).2 rfl).1
    (Or.inl ⟨rfl, rfl⟩)

/-! Claim C6. -/

/-- Claim C6 (confirmed): writing a visible (non-newline, non-control)
character through `Transaction::write` fails iff the current column has
reached `max_columns` and the configuration forbids too-long lines
(every `MultilineMode` except `Recommend`); when it fails, the error is
`MaxColumnsExceeded` (the error the spec calls `LineTooLong`); under
`Recommend` the same write always succeeds and appends the character
(after at most some indent padding). -/
theorem claim_c6_write_failure :
    ∀ (t : Transaction) (c : Char), c ≠ '\n' → 32 ≤ c.toNat →
    (((∃ e, t.writeChar c = .error e) ↔
        (t.config.maxColumns ≤ t.state.currentColumn ∧
          t.config.multilineMode ≠ .recommend))
     ∧ (∀ e, t.writeChar c = .error e → e = .maxColumnsExceeded)
     ∧ (t.config.multilineMode = .recommend →
        ∃ t' k, t.writeChar c = .ok t'
          ∧ t'.state.formattedText
              = t.state.formattedText ++ List.replicate k ' ' ++ [c])) := by
  intro t c hnl _hvis
  by_cases hcond : t.config.maxColumns ≤ t.state.currentColumn ∧
      t.config.multilineMode ≠ .recommend
  · refine ⟨by simp [Transaction.writeChar, hnl, hcond], ?_, ?_⟩
    · intro e he
      simp [Transaction.writeChar, hnl, hcond] at he
      exact he.symm
    · intro hrec
      exact absurd hrec hcond.2
  · refine ⟨?_, ?_, ?_⟩
    · simp [Transaction.writeChar, hnl, hcond]
    · intro e he
      simp [Transaction.writeChar, hnl, hcond] at he
    · intro _
      by_cases hsp : c = ' '
      · subst hsp
        exact ⟨_, 0, writeChar_space_ok t hcond, by simp⟩
      · have hw := writeChar_visible_ok t c hnl hsp hcond
        have hst := (calcIndent_state t).1
        have htext : (t.calcIndent).2.state.formattedText
            = t.state.formattedText := by rw [hst]
        exact ⟨_, (t.calcIndent).1 - (t.calcIndent).2.state.currentColumn, hw,
          by simp [htext]⟩

/-- Claim C6 witness: at a transaction whose column has reached
`max_columns` under mode `Allow`, writing a visible character fails. -/
theorem claim_c6_witness :
    ∃ e, c6T.writeChar 'z' = .error e :=
  ((claim_c6_write_failure c6T 'z' (by decide) (by decide)).1).mpr (by decide)

theorem exceptBind_ok {α β : Type} {x : Except FmtError α}
    {f : α → Except FmtError β} {b : β}
    (h : (x >>= f) = .ok b) : ∃ a, x = .ok a ∧ f a = .ok b := by
  cases x with
  | error e => simp [Bind.bind, Except.bind] at h
  | ok a => exact ⟨a, rfl, by simpa [Bind.bind, Except.bind] using h⟩

theorem calcIndent_cached (t : Transaction) (i : Nat)
    (h : t.state.indent = some i) : t.calcIndent = (i, t) := by
  cases t <;> simp_all [Transaction.calcIndent, Transaction.state]

theorem writeChar_ok_cond (t : Transaction) (c : Char) (t1 : Transaction)
    (hnl : c ≠ '\n') (h : t.writeChar c = .ok t1) :
    ¬(t.config.maxColumns ≤ t.state.currentColumn ∧
      t.config.multilineMode ≠ .recommend) := by
  by_cases hcond : t.config.maxColumns ≤ t.state.currentColumn ∧
      t.config.multilineMode ≠ .recommend
  · simp [Transaction.writeChar, hnl, hcond] at h
  · exact hcond

theorem lastChar_of_ne_nil (t : Transaction)
    (h : t.state.formattedText ≠ []) :
    t.lastChar = t.state.formattedText.getLast? := by
  cases t with
  | root cfg st => rfl
  | child cfg st p =>
    simp only [Transaction.state] at h
    rcases hl : st.formattedText.getLast? with _ | c
    · exact absurd (List.getLast?_eq_none_iff.mp hl) h
    · simp [Transaction.lastChar, Transaction.state, hl]

theorem sliceText_ne_nil (text : List Char) (a b : Nat)
    (h1 : a < b) (h2 : b ≤ text.length) : sliceText text a b ≠ [] := by
  have : (sliceText text a b).length = min (b - a) (text.length - a) := by
    simp [sliceText]
  intro hnil
  rw [hnil] at this
  simp only [List.length_nil] at this
  omega

theorem write_singleton (t : Transaction) (c : Char) :
    t.write [c] = t.writeChar c := by
  rw [Transaction.write]
  cases h : t.writeChar c <;> simp [Bind.bind, Except.bind, Transaction.write]

theorem writeChar_visible_cached (t : Transaction) (c : Char) (i : Nat)
    (hnl : c ≠ '\n') (hsp : c ≠ ' ') (hca : t.state.indent = some i)
    (hcol : i ≤ t.state.currentColumn)
    (hcond : ¬(t.config.maxColumns ≤ t.state.currentColumn ∧
      t.config.multilineMode ≠ .recommend)) :
    t.writeChar c = .ok (t.withState { t.state with
      currentColumn := t.state.currentColumn + 1,
      formattedText := t.state.formattedText ++ [c] }) := by
  rw [writeChar_visible_ok t c hnl hsp hcond, calcIndent_cached t i hca]
  have h1 : i - t.state.currentColumn = 0 := by omega
  have h2 : max i t.state.currentColumn = t.state.currentColumn := by omega
  simp [h1, h2]

/-- The tail of a slice write: once the indent is cached and the column
has reached it, writing newline-free text appends it verbatim. -/
theorem write_tail : ∀ (s : List Char) (t : Transaction) (i : Nat)
    (t' : Transaction), noNewline s = true → t.state.indent = some i →
    i ≤ t.state.currentColumn → t.write s = .ok t' →
    t'.state.formattedText = t.state.formattedText ++ s
    ∧ t'.state.nextPosition = t.state.nextPosition
    ∧ t'.state.needsWhitespace = t.state.needsWhitespace
  | [], t, i, t', _, _, _, hw => by
    simp only [Transaction.write] at hw
    cases hw
    exact ⟨by simp, rfl, rfl⟩
  | c :: rest, t, i, t', hnn, hca, hcol, hw => by
    have hnn' : (¬c = '\n') ∧ noNewline rest = true := by
      simpa [noNewline] using hnn
    have hnl : c ≠ '\n' := hnn'.1
    have hrest : noNewline rest = true := hnn'.2
    simp only [Transaction.write] at hw
    obtain ⟨t1, h1, h2⟩ := exceptBind_ok hw
    have hcond := writeChar_ok_cond t c t1 hnl h1
    by_cases hsp : c = ' '
    · subst hsp
      rw [writeChar_space_ok t hcond] at h1
      cases h1
      have ih := write_tail rest _ i t' hrest (by simp [hca])
        (by simp; omega) h2
      simp only [Transaction.state_withState] at ih
      refine ⟨?_, ih.2.1, ih.2.2⟩
      rw [ih.1]
      simp
    · rw [writeChar_visible_cached t c i hnl hsp hca hcol hcond] at h1
      cases h1
      have ih := write_tail rest _ i t' hrest (by simp [hca])
        (by simp; omega) h2
      simp only [Transaction.state_withState] at ih
      refine ⟨?_, ih.2.1, ih.2.2⟩
      rw [ih.1]
      simp

/-- Writing a whole newline-free slice whose head is a visible
character: the output is the original text, then some indent padding,
then the slice verbatim. -/
theorem write_slice (t : Transaction) (c : Char) (rest : List Char)
    (t' : Transaction) (hnl : c ≠ '\n') (hsp : c ≠ ' ')
    (hrest : noNewline rest = true) (hw : t.write (c :: rest) = .ok t') :
    ∃ k, t'.state.formattedText
        = t.state.formattedText ++ List.replicate k ' ' ++ (c :: rest)
      ∧ t'.state.nextPosition = t.state.nextPosition
      ∧ t'.state.needsWhitespace = t.state.needsWhitespace := by
  simp only [Transaction.write] at hw
  obtain ⟨t1, h1, h2⟩ := exceptBind_ok hw
  have hcond := writeChar_ok_cond t c t1 hnl h1
  rw [writeChar_visible_ok t c hnl hsp hcond] at h1
  rcases hci : t.calcIndent with ⟨ind, tc⟩
  rw [hci] at h1
  have hst := (calcIndent_state t).1
  rw [hci] at hst
  simp only at h1 hst
  cases h1
  have hca1 : (tc.withState { tc.state with
      formattedText := tc.state.formattedText ++
        List.replicate (ind - tc.state.currentColumn) ' ' ++ [c],
      currentColumn := max ind tc.state.currentColumn + 1 }).state.indent
      = some ind := by
    simp [hst]
  have ih := write_tail rest _ ind t' hrest hca1 (by simp; omega) h2
  simp only [Transaction.state_withState] at ih
  refine ⟨ind - tc.state.currentColumn, ?_, ?_, ?_⟩
  · rw [ih.1]
    have : tc.state.formattedText = t.state.formattedText := by rw [hst]
    simp [this, List.append_assoc]
  · rw [ih.2.1]
    rw [show tc.state = _ from hst]
  · rw [ih.2.2]
    rw [show tc.state = _ from hst]

/-- Inversion for the pending-whitespace flush: on success it appends
only whitespace and clears the request. -/
theorem writeWhitespace_ok_inv (t : Transaction) (t' : Transaction)
    (hw : t.writeWhitespace = .ok t') :
    ∃ ws, wsOnly ws = true
      ∧ t'.state.formattedText = t.state.formattedText ++ ws
      ∧ t'.state.nextPosition = t.state.nextPosition
      ∧ t'.state.needsWhitespace = none
      ∧ t'.state.indent = t.state.indent
      ∧ (t.state.needsWhitespace = none → t' = t) := by
  rcases hws : t.state.needsWhitespace with _ | w
  · simp only [Transaction.writeWhitespace, hws] at hw
    cases hw
    exact ⟨[], rfl, by simp, rfl, hws, rfl, fun _ => rfl⟩
  · cases w with
    | blank =>
      simp only [Transaction.writeWhitespace, hws, write_singleton] at hw
      have hcond := writeChar_ok_cond _ ' ' t' (by decide) hw
      rw [writeChar_space_ok _ hcond] at hw
      cases hw
      exact ⟨[' '], rfl, by simp, by simp, by simp, by simp, by simp [hws]⟩
    | newline =>
      simp only [Transaction.writeWhitespace, hws, write_singleton] at hw
      by_cases hmode : t.config.multilineMode = .forbid
      · rw [show ((t.withState { t.state with needsWhitespace := none }).writeChar '\n')
            = .error (.multiline (t.withState { t.state with
              needsWhitespace := none }).state.nextPosition) by
          simp [Transaction.writeChar, hmode]] at hw
        cases hw
      · rw [writeChar_newline_ok _ (by simpa using hmode)] at hw
        cases hw
        exact ⟨['\n'], rfl, by simp, by simp, by simp, by simp, by simp [hws]⟩

/-- Decomposition of a successful `write_item` on a well-formed token:
the output grows by a whitespace flush, the optional blank-line newline
(present iff the token starts more than one line after `next_position`),
some indent padding, and then the token's source slice verbatim. -/
theorem writeItem_decomp (t : Transaction) (text : List Char) (item : SpanRec)
    (t' : Transaction)
    (h1 : t.state.nextPosition.offset ≤ item.startPos.offset)
    (h2 : item.startPos.offset < item.endPos.offset)
    (h3 : item.endPos.offset ≤ text.length)
    (h4 : noNewline (sliceText text item.startPos.offset item.endPos.offset) = true)
    (h5 : (sliceText text item.startPos.offset item.endPos.offset).head? ≠ some ' ')
    (hw : t.writeItem text item = .ok t') :
    ∃ fl k, wsOnly fl = true
      ∧ t'.state.formattedText = t.state.formattedText ++ fl ++
          (if t.state.nextPosition.line + 1 < item.startPos.line then ['\n'] else []) ++
          List.replicate k ' ' ++
          sliceText text item.startPos.offset item.endPos.offset
      ∧ t'.state.nextPosition = item.endPos
      ∧ t'.state.needsWhitespace = none
      ∧ (t.state.needsWhitespace = none → fl = []) := by
  have hempty : item.isEmpty = false := by
    simp only [SpanRec.isEmpty, beq_eq_false_iff_ne, ne_eq]
    omega
  have hstart : max item.startPos.offset t.state.nextPosition.offset
      = item.startPos.offset := Nat.max_eq_left h1
  have hend : max item.endPos.offset item.startPos.offset
      = item.endPos.offset := Nat.max_eq_left (Nat.le_of_lt h2)
  rw [Transaction.writeItem] at hw
  simp only [hempty, Bool.false_eq_true, if_false, hstart, hend,
    if_neg (Nat.ne_of_lt h2)] at hw
  obtain ⟨t1, hw1, hw'⟩ := exceptBind_ok hw
  obtain ⟨fl, hflws, hfltext, hflnext, hflnone, _hflind, hflid⟩ :=
    writeWhitespace_ok_inv t t1 hw1
  obtain ⟨c, rest, hs⟩ : ∃ c rest,
      sliceText text item.startPos.offset item.endPos.offset = c :: rest := by
    rcases hsl : sliceText text item.startPos.offset item.endPos.offset with _ | ⟨c, rest⟩
    · exact absurd hsl (sliceText_ne_nil text _ _ h2 h3)
    · exact ⟨c, rest, rfl⟩
  have hcsp : c ≠ ' ' := by
    rw [hs] at h5
    simpa using h5
  have hcnn : (¬c = '\n') ∧ noNewline rest = true := by
    rw [hs] at h4
    simpa [noNewline] using h4
  -- peel off the optional blank-line newline
  have key : ∃ (gws : List Char) (t2 : Transaction), wsOnly gws = true
      ∧ t2.state.formattedText = t1.state.formattedText ++ gws
      ∧ t2.state.needsWhitespace = t1.state.needsWhitespace
      ∧ gws = (if t1.state.nextPosition.line + 1 < item.startPos.line
          then ['\n'] else [])
      ∧ (do
          let t3 ← t2.write (sliceText text item.startPos.offset item.endPos.offset)
          Except.ok (t3.withState { t3.state with nextPosition := item.endPos }))
          = Except.ok t' := by
    by_cases hgap : t1.state.nextPosition.line + 1 < item.startPos.line
    · rw [if_pos hgap] at hw'
      obtain ⟨y, hwy, hrest⟩ := exceptBind_ok hw'
      rw [write_singleton] at hwy
      by_cases hmode : t1.config.multilineMode = .forbid
      · rw [show t1.writeChar '\n'
            = .error (.multiline t1.state.nextPosition) by
          simp [Transaction.writeChar, hmode]] at hwy
        cases hwy
      · rw [writeChar_newline_ok t1 hmode] at hwy
        cases hwy
        exact ⟨['\n'], _, rfl, by simp, by simp, by simp [hgap], hrest⟩
    · rw [if_neg hgap] at hw'
      obtain ⟨y, hwy, hrest⟩ := exceptBind_ok hw'
      cases hwy
      exact ⟨[], t1, rfl, by simp, rfl, by simp [hgap], hrest⟩
  obtain ⟨gws, t2, hgws, hgtext, hgns, hgeq, hw''⟩ := key
  obtain ⟨t3, hw3, hw4⟩ := exceptBind_ok hw''
  cases hw4
  rw [hs] at hw3
  obtain ⟨k, h3text, h3next, h3ns⟩ :=
    write_slice t2 c rest t3 hcnn.1 hcsp hcnn.2 hw3
  have hflnil : t.state.needsWhitespace = none → fl = [] := by
    intro hn
    have h0 := hfltext
    rw [hflid hn] at h0
    have hlen : fl.length = 0 := by
      have hl := congrArg List.length h0
      simp only [List.length_append] at hl
      omega
    exact List.eq_nil_of_length_eq_zero hlen
  refine ⟨fl, k, hflws, ?_, ?_, ?_, hflnil⟩
  · simp only [Transaction.state_withState]
    rw [h3text, hgtext, hfltext, hs, hgeq, hflnext]
  · simp
  · simp only [Transaction.state_withState]
    rw [h3ns, hgns, hflnone]

/-! Claim C7. -/

/-- Claim C7 (confirmed): when a well-formed token is written with no
whitespace pending, `write_item` emits exactly one extra newline before
the token's text iff `token.start.line > next_position.line + 1` (one
blank line preserved from the source); when the gap is one line or less
the only characters inserted before the slice are indent spaces. -/
theorem claim_c7_blank_line :
    ∀ (t : Transaction) (text : List Char) (item : SpanRec) (t' : Transaction),
    t.state.needsWhitespace = none →
    t.state.nextPosition.offset ≤ item.startPos.offset →
    item.startPos.offset < item.endPos.offset →
    item.endPos.offset ≤ text.length →
    noNewline (sliceText text item.startPos.offset item.endPos.offset) = true →
    (sliceText text item.startPos.offset item.endPos.offset).head? ≠ some ' ' →
    t.writeItem text item = .ok t' →
    ∃ k, t'.state.formattedText
        = t.state.formattedText ++
          (if t.state.nextPosition.line + 1 < item.startPos.line
            then ['\n'] else []) ++
          List.replicate k ' ' ++
          sliceText text item.startPos.offset item.endPos.offset
      ∧ t'.state.nextPosition = item.endPos := by
  intro t text item t' hwsn h1 h2 h3 h4 h5 hw
  obtain ⟨fl, k, _, htext, hnext, _, hflid⟩ :=
    writeItem_decomp t text item t' h1 h2 h3 h4 h5 hw
  refine ⟨k, ?_, hnext⟩
  rw [htext, hflid hwsn]
  simp

/-- Claim C7 witness: the blank-line rule applied at a concrete input —
a token starting on line 2 written from line 0 yields exactly one extra
newline, then indent padding, then the slice. -/
theorem claim_c7_witness :
    c7T.writeItem c7Text c7Item = .ok c7T' ∧
    (∃ k, c7T'.state.formattedText
        = c7T.state.formattedText ++
          (if c7T.state.nextPosition.line + 1 < c7Item.startPos.line
            then ['\n'] else []) ++
          List.replicate k ' ' ++
          sliceText c7Text c7Item.startPos.offset c7Item.endPos.offset
      ∧ c7T'.state.nextPosition = c7Item.endPos) :=
  ⟨rfl, claim_c7_blank_line c7T c7Text c7Item c7T' rfl (by decide) (by decide)
    (by decide) (by decide) (by decide) rfl⟩

/-! Claim C10. -/

/-- Claim C10 (confirmed): for a non-empty comment (whose slice is
non-empty and does not end in a newline), once the whitespace phase of
`write_comment` succeeds the rest cannot fail, whatever the column and
`max_columns` are: the comment's source slice is pushed directly onto
the buffer with no indent padding and no column check, `current_column`
grows by exactly the slice length, `next_position` moves to the
comment's end, and a pending newline is requested. -/
theorem claim_c10_write_comment :
    ∀ (t : Transaction) (text : List Char) (comment : SpanRec)
      (tws : Transaction),
    comment.isEmpty = false →
    sliceText text comment.startPos.offset comment.endPos.offset ≠ [] →
    (sliceText text comment.startPos.offset comment.endPos.offset).getLast?
      ≠ some '\n' →
    t.writeCommentWs comment = .ok tws →
    ∃ t', t.writeComment text comment = .ok t'
      ∧ t'.state.formattedText = tws.state.formattedText ++
          sliceText text comment.startPos.offset comment.endPos.offset
      ∧ t'.state.currentColumn = tws.state.currentColumn +
          (sliceText text comment.startPos.offset comment.endPos.offset).length
      ∧ t'.state.needsWhitespace = some .newline
      ∧ t'.state.nextPosition = comment.endPos := by
  intro t text comment tws _hne hsne hlast hws
  obtain ⟨c, hc⟩ : ∃ c,
      (sliceText text comment.startPos.offset comment.endPos.offset).getLast?
        = some c := by
    rcases h : (sliceText text comment.startPos.offset comment.endPos.offset).getLast?
      with _ | c
    · exact absurd (List.getLast?_eq_none_iff.mp h) hsne
    · exact ⟨c, rfl⟩
  have hcnl : c ≠ '\n' := fun h => hlast (h ▸ hc)
  have hwc : t.writeComment text comment = .ok
      ((tws.withState { tws.state with
        formattedText := tws.state.formattedText ++
          sliceText text comment.startPos.offset comment.endPos.offset,
        currentColumn := tws.state.currentColumn +
          (sliceText text comment.startPos.offset comment.endPos.offset).length,
        nextPosition := comment.endPos }).requestWhitespace .newline) := by
    rw [Transaction.writeComment, hws]
    rfl
  have hlc : (tws.withState { tws.state with
      formattedText := tws.state.formattedText ++
        sliceText text comment.startPos.offset comment.endPos.offset,
      currentColumn := tws.state.currentColumn +
        (sliceText text comment.startPos.offset comment.endPos.offset).length,
      nextPosition := comment.endPos }).lastChar = some c := by
    rw [lastChar_of_ne_nil]
    · simp only [Transaction.state_withState]
      rw [List.getLast?_append_of_ne_nil _ hsne]
      exact hc
    · simp only [Transaction.state_withState]
      simp [hsne]
  rw [Transaction.requestWhitespace, hlc] at hwc
  simp only [if_neg hcnl, hcnl] at hwc
  rw [if_neg (by simp), if_neg (by simp)] at hwc
  refine ⟨_, hwc, ?_, ?_, ?_, ?_⟩ <;> simp

/-- Claim C10 witness: writing a concrete three-character comment from a
fresh transaction (whose whitespace phase is a no-op). -/
theorem claim_c10_witness :
    c10T.writeCommentWs c10Comment = .ok c10T ∧
    (∃ t', c10T.writeComment c10Text c10Comment = .ok t'
      ∧ t'.state.formattedText = c10T.state.formattedText ++
          sliceText c10Text c10Comment.startPos.offset c10Comment.endPos.offset
      ∧ t'.state.currentColumn = c10T.state.currentColumn +
          (sliceText c10Text c10Comment.startPos.offset c10Comment.endPos.offset).length
      ∧ t'.state.needsWhitespace = some .newline
      ∧ t'.state.nextPosition = c10Comment.endPos) :=
  ⟨rfl, claim_c10_write_comment c10T c10Text c10Comment c10T (by decide)
    (by decide) (by decide) rfl⟩

/-! Claim C8. -/

theorem stateEqExceptIndent_refl (s : TransactionState) :
    stateEqExceptIndent s s := ⟨rfl, rfl, rfl, rfl⟩

theorem stateEqExceptIndent_trans {a b c : TransactionState}
    (hab : stateEqExceptIndent a b) (hbc : stateEqExceptIndent b c) :
    stateEqExceptIndent a c :=
  ⟨hab.1.trans hbc.1, hab.2.1.trans hbc.2.1, hab.2.2.1.trans hbc.2.2.1,
    hab.2.2.2.trans hbc.2.2.2⟩

theorem eqExceptIndent_refl : ∀ t : Transaction, eqExceptIndent t t
  | .root _ s => ⟨rfl, stateEqExceptIndent_refl s⟩
  | .child _ s p => ⟨rfl, stateEqExceptIndent_refl s, eqExceptIndent_refl p⟩

theorem eqExceptIndent_trans : ∀ (a b c : Transaction),
    eqExceptIndent a b → eqExceptIndent b c → eqExceptIndent a c
  | .root _ _, .root _ _, .root _ _, hab, hbc =>
    ⟨hab.1.trans hbc.1, stateEqExceptIndent_trans hab.2 hbc.2⟩
  | .child _ _ pa, .child _ _ pb, .child _ _ pc, hab, hbc =>
    ⟨hab.1.trans hbc.1, stateEqExceptIndent_trans hab.2.1 hbc.2.1,
      eqExceptIndent_trans pa pb pc hab.2.2 hbc.2.2⟩
  | .root _ _, .child _ _ _, _, hab, _ => hab.elim
  | .child _ _ _, .root _ _, _, hab, _ => hab.elim
  | .root _ _, .root _ _, .child _ _ _, _, hbc => hbc.elim
  | .child _ _ _, .child _ _ _, .root _ _, _, hbc => hbc.elim

theorem parentsEq_refl : ∀ t : Transaction, parentsEqExceptIndent t t
  | .root _ _ => trivial
  | .child _ _ p => eqExceptIndent_refl p

theorem parentsEq_trans : ∀ (a b c : Transaction),
    parentsEqExceptIndent a b → parentsEqExceptIndent b c →
    parentsEqExceptIndent a c
  | .root _ _, .root _ _, .root _ _, _, _ => trivial
  | .child _ _ pa, .child _ _ pb, .child _ _ pc, hab, hbc =>
    eqExceptIndent_trans pa pb pc hab hbc
  | .root _ _, .child _ _ _, _, hab, _ => hab.elim
  | .child _ _ _, .root _ _, _, hab, _ => hab.elim
  | .root _ _, .root _ _, .child _ _ _, _, hbc => hbc.elim
  | .child _ _ _, .child _ _ _, .root _ _, _, hbc => hbc.elim

theorem parentsEq_withState : ∀ (t : Transaction) (s : TransactionState),
    parentsEqExceptIndent t (t.withState s)
  | .root _ _, _ => trivial
  | .child _ _ p, _ => eqExceptIndent_refl p

theorem calcIndent_eqExcept : ∀ t : Transaction, eqExceptIndent t (t.calcIndent).2
  | .root cfg st => by
    cases h : st.indent with
    | some i =>
      simp only [Transaction.calcIndent, h]
      exact eqExceptIndent_refl _
    | none =>
      simp only [Transaction.calcIndent, h]
      exact ⟨rfl, rfl, rfl, rfl, rfl⟩
  | .child cfg st p => by
    cases h : st.indent with
    | some i =>
      simp only [Transaction.calcIndent, h]
      exact eqExceptIndent_refl _
    | none =>
      rcases hp : p.calcIndent with ⟨pi, p'⟩
      simp only [Transaction.calcIndent, h, hp]
      refine ⟨rfl, ⟨rfl, rfl, rfl, rfl⟩, ?_⟩
      have := calcIndent_eqExcept p
      rw [hp] at this
      exact this

theorem calcIndent_parentsEq : ∀ t : Transaction,
    parentsEqExceptIndent t (t.calcIndent).2
  | .root cfg st => by
    cases h : st.indent with
    | some i => simp only [Transaction.calcIndent, h]; trivial
    | none => simp only [Transaction.calcIndent, h]; trivial
  | .child cfg st p => by
    cases h : st.indent with
    | some i =>
      simp only [Transaction.calcIndent, h]
      exact eqExceptIndent_refl p
    | none =>
      rcases hp : p.calcIndent with ⟨pi, p'⟩
      simp only [Transaction.calcIndent, h, hp]
      have := calcIndent_eqExcept p
      rw [hp] at this
      exact this

theorem writeChar_parentsEq (t : Transaction) (c : Char) (t1 : Transaction)
    (h : t.writeChar c = .ok t1) : parentsEqExceptIndent t t1 := by
  by_cases hnl : c = '\n'
  · subst hnl
    by_cases hmode : t.config.multilineMode = .forbid
    · simp [Transaction.writeChar, hmode] at h
    · rw [writeChar_newline_ok t hmode] at h
      cases h
      exact parentsEq_withState t _
  · have hcond := writeChar_ok_cond t c t1 hnl h
    by_cases hsp : c = ' '
    · subst hsp
      rw [writeChar_space_ok t hcond] at h
      cases h
      exact parentsEq_withState t _
    · rw [writeChar_visible_ok t c hnl hsp hcond] at h
      cases h
      exact parentsEq_trans t _ _ (calcIndent_parentsEq t)
        (parentsEq_withState _ _)

theorem write_parentsEq : ∀ (s : List Char) (t : Transaction) (t' : Transaction),
    t.write s = .ok t' → parentsEqExceptIndent t t'
  | [], t, t', hw => by
    simp only [Transaction.write] at hw
    cases hw
    exact parentsEq_refl t
  | c :: rest, t, t', hw => by
    simp only [Transaction.write] at hw
    obtain ⟨t1, h1, h2⟩ := exceptBind_ok hw
    exact parentsEq_trans t t1 t' (writeChar_parentsEq t c t1 h1)
      (write_parentsEq rest t1 t' h2)

/-- Claim C8 counterexample: a parent transaction whose indent cache is
still empty; a child is started and writes one character, which caches
indents along the chain; aborting then yields a parent that differs from
the parent as of transaction start (its indent cache is now filled), so
abort does not leave the parent exactly as it was. -/
theorem claim_c8_counterexample :
    ((c8Parent.startNewTransaction c8Cfg).writeChar 'x').toOption.map
      Transaction.abort ≠ some c8Parent := by
  decide

/-- Claim C8 amended (proved): committing a child appends its formatted
text to the parent's buffer and copies `next_position`,
`current_column` and the pending whitespace into the parent, while the
parent's configuration, cached indent and parent link are unchanged by
the commit; aborting discards the child entirely and reinstates the
stored parent; and writes performed inside a transaction change its
ancestors only in their indent caches (so the stored parent can differ
from the parent as of transaction start only there). -/
theorem claim_c8_amended :
    (∀ (cfg : TransactionConfig) (st : TransactionState) (p : Transaction),
      (Transaction.commit (.child cfg st p)).config = p.config
      ∧ (Transaction.commit (.child cfg st p)).state.nextPosition = st.nextPosition
      ∧ (Transaction.commit (.child cfg st p)).state.currentColumn = st.currentColumn
      ∧ (Transaction.commit (.child cfg st p)).state.needsWhitespace
          = st.needsWhitespace
      ∧ (Transaction.commit (.child cfg st p)).state.formattedText
          = p.state.formattedText ++ st.formattedText
      ∧ (Transaction.commit (.child cfg st p)).state.indent = p.state.indent
      ∧ (Transaction.commit (.child cfg st p)).parentOf = p.parentOf)
    ∧ (∀ (cfg : TransactionConfig) (st : TransactionState) (p : Transaction),
      Transaction.abort (.child cfg st p) = p)
    ∧ (∀ (s : List Char) (t t' : Transaction),
      t.write s = .ok t' → parentsEqExceptIndent t t') := by
  refine ⟨?_, fun _ _ _ => rfl, fun s t t' hw => write_parentsEq s t t' hw⟩
  intro cfg st p
  simp [Transaction.commit, TransactionState.copyFromCommittedTransaction]

/-- Claim C8 witness: the frame part of the amended claim applied at a
concrete input — writing one character inside `c8Child` relates the
stored parents up to indent caches. -/
theorem claim_c8_witness : parentsEqExceptIndent c8Child c8Child' :=
  claim_c8_amended.2.2 ['x'] c8Child c8Child' rfl

/-! Claim C5. -/

theorem ItemList.flats_append : ∀ (a b : ItemList),
    (a.append b).flats = a.flats ++ b.flats
  | .nil, b => by simp [ItemList.append, ItemList.flats]
  | .cons x xs, b => by
    simp [ItemList.append, ItemList.flats, ItemList.flats_append xs b]

theorem ItemList.push_flats (xs : ItemList) (x : Item) :
    (xs.push x).flats = xs.flats ++ x.flatOf := by
  simp [ItemList.push, ItemList.flats_append, ItemList.flats]

theorem addTokenLast_flats : ∀ (its : ItemList) (tok : VisibleToken),
    (its.addTokenLast tok).flats = its.flats ++ [FlatNode.tok tok]
  | .nil, tok => by
    simp [ItemList.addTokenLast, ItemList.flats, Item.flatOf]
  | .cons (Item.region i n inner) .nil, tok => by
    simp [ItemList.addTokenLast, ItemList.flats, Item.flatOf,
      addTokenLast_flats inner tok]
  | .cons (Item.token t) .nil, tok => by
    simp [ItemList.addTokenLast, ItemList.flats, Item.flatOf]
  | .cons (Item.space k) .nil, tok => by
    simp [ItemList.addTokenLast, ItemList.flats, Item.flatOf]
  | .cons (Item.newline k) .nil, tok => by
    simp [ItemList.addTokenLast, ItemList.flats, Item.flatOf]
  | .cons x (.cons y rest), tok => by
    simp [ItemList.addTokenLast, ItemList.flats,
      addTokenLast_flats (ItemList.cons y rest) tok]

theorem addRegionLast_flats : ∀ (its : ItemList) (reg : Item),
    (its.addRegionLast reg).flats = its.flats ++ reg.flatOf
  | .nil, reg => by
    simp [ItemList.addRegionLast, ItemList.flats]
  | .cons (Item.region i n inner) .nil, reg => by
    simp [ItemList.addRegionLast, ItemList.flats, Item.flatOf,
      addRegionLast_flats inner reg]
  | .cons (Item.token t) .nil, reg => by
    simp [ItemList.addRegionLast, ItemList.flats]
  | .cons (Item.space k) .nil, reg => by
    simp [ItemList.addRegionLast, ItemList.flats]
  | .cons (Item.newline k) .nil, reg => by
    simp [ItemList.addRegionLast, ItemList.flats]
  | .cons x (.cons y rest), reg => by
    simp [ItemList.addRegionLast, ItemList.flats,
      addRegionLast_flats (ItemList.cons y rest) reg]

theorem addTokenLast_lastRegion :
    ∀ (pre : ItemList) (i2 : Indent) (n2 : Newline) (inner : ItemList)
      (tok : VisibleToken),
    ((pre.append (.cons (.region i2 n2 inner) .nil)).addTokenLast tok)
      = pre.append (.cons (.region i2 n2 (inner.addTokenLast tok)) .nil)
  | .nil, _, _, _, _ => rfl
  | .cons x .nil, i2, n2, inner, tok => rfl
  | .cons x (.cons y pre'), i2, n2, inner, tok => by
    have ih := addTokenLast_lastRegion (ItemList.cons y pre') i2 n2 inner tok
    simp only [ItemList.append, ItemList.addTokenLast]
    rw [show (ItemList.cons y pre').append
        (ItemList.cons (Item.region i2 n2 inner) ItemList.nil)
        = ItemList.cons y (pre'.append
          (ItemList.cons (Item.region i2 n2 inner) ItemList.nil)) from rfl] at ih
    rw [ih]
    simp [ItemList.append]

theorem addRegionLast_lastRegion :
    ∀ (pre : ItemList) (i2 : Indent) (n2 : Newline) (inner : ItemList)
      (reg : Item),
    ((pre.append (.cons (.region i2 n2 inner) .nil)).addRegionLast reg)
      = pre.append (.cons (.region i2 n2 (inner.addRegionLast reg)) .nil)
  | .nil, _, _, _, _ => rfl
  | .cons x .nil, i2, n2, inner, reg => rfl
  | .cons x (.cons y pre'), i2, n2, inner, reg => by
    have ih := addRegionLast_lastRegion (ItemList.cons y pre') i2 n2 inner reg
    simp only [ItemList.append, ItemList.addRegionLast]
    rw [show (ItemList.cons y pre').append
        (ItemList.cons (Item.region i2 n2 inner) ItemList.nil)
        = ItemList.cons y (pre'.append
          (ItemList.cons (Item.region i2 n2 inner) ItemList.nil)) from rfl] at ih
    rw [ih]
    simp [ItemList.append]


theorem addCommentsGo_spec :
    ∀ (cs : List CommentTok) (tokStart : Position) (fmt : Formatter2)
      (i : Indent) (n : Newline) (its : ItemList),
    fmt.item = .region i n its →
    ∃ its', (addCommentsGo commentEmitSpec tokStart cs fmt).item
        = Item.region i n its'
      ∧ (addCommentsGo commentEmitSpec tokStart cs fmt).lastToken = fmt.lastToken
      ∧ its'.flats = its.flats ++ goFlats tokStart cs fmt.nextPosition
  | [], tokStart, fmt, i, n, its, hfi => by
    refine ⟨its, ?_, ?_, ?_⟩
    · simpa [addCommentsGo] using hfi
    · simp [addCommentsGo]
    · simp [addCommentsGo, goFlats]
  | c :: rest, tokStart, fmt, i, n, its, hfi => by
    by_cases hskip : c.startPos.offset < fmt.nextPosition.offset
    · have ih := addCommentsGo_spec rest tokStart
        { fmt with comments := rest } i n its hfi
      simp only [addCommentsGo, if_pos hskip, goFlats]
      exact ih
    · by_cases hstop : tokStart.offset < c.startPos.offset
      · refine ⟨its, ?_, ?_, ?_⟩
        · simpa [addCommentsGo, if_neg hskip, if_pos hstop] using hfi
        · simp [addCommentsGo, if_neg hskip, if_pos hstop]
        · simp [addCommentsGo, goFlats, if_neg hskip, if_pos hstop]
      · have hemit : (commentEmitSpec c { fmt with
            nextPosition := c.endPos, comments := rest }).item
            = Item.region i n
              ((if c.kind = .post then its.push (.newline 1) else its).addTokenLast
                (commentVisible c)) := by
          simp only [commentEmitSpec, hfi]
          by_cases hk : c.kind = .post
          · simp [hk, Item.addNewline, Item.addToken]
          · simp [hk, Item.addToken]
        have ih := addCommentsGo_spec rest tokStart
          (commentEmitSpec c { fmt with nextPosition := c.endPos, comments := rest })
          i n _ hemit
        obtain ⟨its', h1, h2, h3⟩ := ih
        simp only [addCommentsGo, if_neg hskip, if_neg hstop]
        refine ⟨its', h1, ?_, ?_⟩
        · rw [h2]
          simp [commentEmitSpec]
        · rw [h3, addTokenLast_flats]
          have hnext : (commentEmitSpec c { fmt with
              nextPosition := c.endPos, comments := rest }).nextPosition
              = c.endPos := by simp [commentEmitSpec]
          rw [hnext]
          by_cases hk : c.kind = .post
          · simp [hk, ItemList.push_flats, goFlats, if_neg hskip, if_neg hstop,
              Item.flatOf, List.append_assoc]
          · simp [hk, goFlats, if_neg hskip, if_neg hstop, List.append_assoc]

/-- Claim C5 counterexample: a builder state with a previous token, one
pending post comment, and an incoming token for which the needs-space
predicate holds. `Formatter2::add_token` emits the implicit `Space(1)`
first and the comment after it, while the claim prescribes the comments
first and then the space, so the two orders produce different trees
(flattened: token, space, newline, comment, token versus token, newline,
comment, space, token). -/
theorem claim_c5_counterexample :
    Formatter2.addToken ns5 commentEmitSpec c5fmt c5b
      ≠ specAddTokenClaim ns5 commentEmitSpec c5fmt c5b := by
  intro h
  exact absurd (congrArg (fun f => f.item.flatOf) h) (by decide)

/-- Claim C5 amended (proved): `add_token(tok)` first emits the implicit
`Space(1)` when the needs-space predicate holds for the previous visible
token and `tok`, then emits each pending comment whose start falls
between the current `next_position` and `tok`'s start (each as a token
with its preceding newline when it is a post comment), then appends
`Token(tok)`, and finally advances `next_position` to `tok`'s end and
records `tok` as the last token. -/
theorem claim_c5_amended :
    ∀ (ns : VisibleToken → VisibleToken → Bool) (fmt : Formatter2)
      (token : VisibleToken) (i : Indent) (n : Newline) (its : ItemList),
    fmt.item = .region i n its →
    ∃ its', (Formatter2.addToken ns commentEmitSpec fmt token).item
        = Item.region i n its'
      ∧ its'.flats = its.flats
          ++ spaceFlat ns fmt.lastToken token
          ++ goFlats token.startPos fmt.comments fmt.nextPosition
          ++ [FlatNode.tok token]
      ∧ (Formatter2.addToken ns commentEmitSpec fmt token).nextPosition
          = token.endPos
      ∧ (Formatter2.addToken ns commentEmitSpec fmt token).lastToken
          = some token := by
  intro ns fmt token i n its hfi
  have hsp : ∃ fmt1 its1, (match fmt.lastToken with
      | some last =>
        if ns last token then { fmt with item := fmt.item.addSpace 1 } else fmt
      | none => fmt) = fmt1
      ∧ fmt1.item = Item.region i n its1
      ∧ its1.flats = its.flats ++ spaceFlat ns fmt.lastToken token
      ∧ fmt1.comments = fmt.comments
      ∧ fmt1.nextPosition = fmt.nextPosition := by
    rcases hlt : fmt.lastToken with _ | last
    · exact ⟨fmt, its, rfl, hfi, by simp [spaceFlat], rfl, rfl⟩
    · by_cases hns : ns last token
      · refine ⟨{ fmt with item := fmt.item.addSpace 1 }, its.push (.space 1),
          by simp [hns, hlt], ?_, ?_, rfl, rfl⟩
        · simp [hfi, Item.addSpace]
        · simp [ItemList.push_flats, spaceFlat, hns, hlt, Item.flatOf]
      · exact ⟨fmt, its, by simp [hns, hlt], hfi,
          by simp [spaceFlat, hns, hlt], rfl, rfl⟩
  obtain ⟨fmt1, its1, hm, hfi1, hfl1, hc1, hn1⟩ := hsp
  obtain ⟨its2, h1, h2, h3⟩ :=
    addCommentsGo_spec fmt1.comments token.startPos fmt1 i n its1 hfi1
  refine ⟨its2.addTokenLast token, ?_, ?_, rfl, rfl⟩
  · have hitem : (Formatter2.addToken ns commentEmitSpec fmt token).item
        = ((addCommentsGo commentEmitSpec token.startPos
            fmt1.comments fmt1).item).addToken token := by
      simp only [Formatter2.addToken, hm]
    rw [hitem, h1]
    simp [Item.addToken]
  · rw [addTokenLast_flats, h3, hfl1, hc1, hn1]

/-- Claim C5 witness: the amended emission order applied at the concrete
builder state of the counterexample. -/
theorem claim_c5_witness :
    c5fmt.item = Item.region .CurrentColumn .Never (.cons (.token c5a) .nil) ∧
    (∃ its', (Formatter2.addToken ns5 commentEmitSpec c5fmt c5b).item
        = Item.region .CurrentColumn .Never its'
      ∧ its'.flats = (ItemList.cons (.token c5a) .nil).flats
          ++ spaceFlat ns5 c5fmt.lastToken c5b
          ++ goFlats c5b.startPos c5fmt.comments c5fmt.nextPosition
          ++ [FlatNode.tok c5b]
      ∧ (Formatter2.addToken ns5 commentEmitSpec c5fmt c5b).nextPosition
          = c5b.endPos
      ∧ (Formatter2.addToken ns5 commentEmitSpec c5fmt c5b).lastToken
          = some c5b) :=
  ⟨rfl, claim_c5_amended ns5 c5fmt c5b .CurrentColumn .Never
    (.cons (.token c5a) .nil) rfl⟩

/-! Claim C9. -/

/-- Claim C9 (confirmed): every node the builder appends — a token via
`Item::add_token` or a completed subregion via `Item::add_region` — goes
to the last descendant region chain: its leaves land after all existing
leaves (so the token sequence of the tree extends strictly at the end,
preserving source order), and when the region's last item is itself a
region the new node is appended recursively inside that last region
rather than directly to the current region. -/
theorem claim_c9_last_chain :
    ∀ (ind : Indent) (nl : Newline) (items : ItemList) (tok : VisibleToken)
      (reg : Item),
    Item.tokensOf (Item.addToken (.region ind nl items) tok)
      = Item.tokensOf (.region ind nl items) ++ [tok]
    ∧ Item.tokensOf (Item.addRegion (.region ind nl items) reg)
      = Item.tokensOf (.region ind nl items) ++ Item.tokensOf reg
    ∧ (∀ (pre : ItemList) (i2 : Indent) (n2 : Newline) (inner : ItemList),
        items = pre.append (.cons (.region i2 n2 inner) .nil) →
        Item.addToken (.region ind nl items) tok
          = .region ind nl (pre.push (Item.addToken (.region i2 n2 inner) tok))
        ∧ Item.addRegion (.region ind nl items) reg
          = .region ind nl (pre.push (Item.addRegion (.region i2 n2 inner) reg))) := by
  intro ind nl items tok reg
  refine ⟨?_, ?_, ?_⟩
  · simp [Item.addToken, Item.tokensOf, Item.flatOf, addTokenLast_flats,
      tokensOfFlat, List.filterMap_append]
  · simp [Item.addRegion, Item.tokensOf, Item.flatOf, addRegionLast_flats,
      tokensOfFlat, List.filterMap_append]
  · intro pre i2 n2 inner h
    subst h
    constructor
    · simp [Item.addToken, addTokenLast_lastRegion, ItemList.push]
    · simp [Item.addRegion, addRegionLast_lastRegion, ItemList.push]

/-- Claim C9 witness: appending a token to a region whose single item is
an (empty) region descends into that last region. -/
theorem claim_c9_witness :
    Item.addToken
        (.region .Inherit .Never
          (ItemList.cons (.region .Inherit .Never .nil) .nil)) c9tok
      = .region .Inherit .Never
          (ItemList.push .nil (Item.addToken (.region .Inherit .Never .nil) c9tok)) :=
  ((claim_c9_last_chain .Inherit .Never
      (ItemList.cons (.region .Inherit .Never .nil) .nil) c9tok (Item.space 1)).2.2
    .nil .Inherit .Never .nil rfl).1

/-! Claim C1. -/

theorem wsOnly_replicate_space (k : Nat) :
    wsOnly (List.replicate k ' ') = true := by
  simp only [wsOnly, List.all_eq_true]
  intro x hx
  rw [List.eq_of_mem_replicate hx]
  rfl

theorem renderTokens_decomp : ∀ (items : List SpanRec) (t : Transaction)
    (text : List Char) (t' : Transaction),
    goodChain text t.state.nextPosition.offset items →
    t.renderTokens text items = .ok t' →
    ∃ wss : List (List Char), wss.length = items.length + 1
      ∧ (∀ w ∈ wss, wsOnly w = true)
      ∧ t'.state.formattedText = t.state.formattedText
          ++ interleave wss (items.map (fun i =>
              sliceText text i.startPos.offset i.endPos.offset))
  | [], t, text, t', _, hw => by
    simp only [Transaction.renderTokens] at hw
    cases hw
    refine ⟨[[]], rfl, ?_, by simp [interleave]⟩
    intro w hw'
    simp only [List.mem_singleton] at hw'
    simp [hw', wsOnly]
  | item :: rest, t, text, t', hg, hw => by
    obtain ⟨hb, h2, h3, h4, h5, hgrest⟩ := hg
    simp only [Transaction.renderTokens] at hw
    obtain ⟨t1, hw1, hw2⟩ := exceptBind_ok hw
    obtain ⟨fl, k, hflws, htext, hnext, _hwsnone, _⟩ :=
      writeItem_decomp t text item t1 hb h2 h3 h4 h5 hw1
    have hg2 : goodChain text t1.state.nextPosition.offset rest := by
      rw [hnext]
      exact hgrest
    obtain ⟨wss, hlen, hws, htext2⟩ := renderTokens_decomp rest t1 text t' hg2 hw2
    refine ⟨(fl ++ (if t.state.nextPosition.line + 1 < item.startPos.line
        then ['\n'] else []) ++ List.replicate k ' ') :: wss,
      by simp [hlen], ?_, ?_⟩
    · intro w hw'
      rcases List.mem_cons.mp hw' with h | h
      · subst h
        simp only [wsOnly, List.all_append, Bool.and_eq_true]
        refine ⟨⟨?_, ?_⟩, ?_⟩
        · simpa [wsOnly] using hflws
        · split <;> decide
        · simpa [wsOnly] using wsOnly_replicate_space k
      · exact hws w h
    · rw [htext2, htext]
      simp [interleave, List.append_assoc]

/-- Claim C1 counterexample: a single well-formed token whose byte slice
contains an embedded newline, rendered under resolved indent 2 with
multi-line output allowed. The render succeeds, but the writer pads the
line after the embedded newline up to the indent, so the token's byte
slice does not appear verbatim (contiguously) in the formatted output —
whitespace is inserted inside the token, refuting the unrestricted
claim. -/
theorem claim_c1_counterexample :
    (Transaction.renderTokens c1T c1Text [c1Item]).toOption.map
      (fun t => listHasInfix t.state.formattedText
        (sliceText c1Text c1Item.startPos.offset c1Item.endPos.offset))
      = some false
    ∧ sliceText c1Text c1Item.startPos.offset c1Item.endPos.offset
      = ['x', '\n', 'y']
    ∧ (Transaction.renderTokens c1T c1Text [c1Item]).toOption.map
      (fun t => t.state.formattedText)
      = some [' ', ' ', 'x', '\n', ' ', ' ', 'y'] := by
  refine ⟨by decide, by decide, by decide⟩

/-- Claim C1 amended (proved): content preservation holds for every
well-formed token chain whose byte slices contain no embedded newline
(and do not begin with a space — true of every token of the source
language): tokens in source order, each starting at or after the
previous end and at or after `next_position`. On a successful render,
the output text is exactly the token slices verbatim, in the same
order, interleaved with whitespace-only (spaces and newlines) segments;
in particular concatenating the non-whitespace segments of the output
recovers the concatenation of the input token slices. For a token slice
with an embedded newline the writer re-indents the continuation line
inside the slice, so the unrestricted claim fails
(`claim_c1_counterexample`). -/
theorem claim_c1_content_preservation :
    ∀ (t : Transaction) (text : List Char) (items : List SpanRec)
      (t' : Transaction),
    goodChain text t.state.nextPosition.offset items →
    t.renderTokens text items = .ok t' →
    ∃ wss : List (List Char), wss.length = items.length + 1
      ∧ (∀ w ∈ wss, wsOnly w = true)
      ∧ t'.state.formattedText = t.state.formattedText
          ++ interleave wss (items.map (fun i =>
              sliceText text i.startPos.offset i.endPos.offset)) :=
  fun t text items t' hg hw => renderTokens_decomp items t text t' hg hw

/-- Claim C1 witness: the amended content preservation applied to a
concrete two-token chain rendered from a fresh transaction. -/
theorem claim_c1_witness :
    goodChain c1wText (Transaction.state c1wT).nextPosition.offset c1wItems
    ∧ (∃ wss : List (List Char), wss.length = c1wItems.length + 1
      ∧ (∀ w ∈ wss, wsOnly w = true)
      ∧ (Transaction.state c1wT').formattedText
          = (Transaction.state c1wT).formattedText
          ++ interleave wss (c1wItems.map (fun i =>
              sliceText c1wText i.startPos.offset i.endPos.offset))) :=
  ⟨by decide, claim_c1_content_preservation c1wT c1wText c1wItems c1wT'
    (by decide) rfl⟩

end Efmt
